import Mathlib

/-!
Shallow embedding of `src/symtab.c` (radix-trie symbol table).

A `SymEntry *` in the C code is a pointer to the head of a sibling chain
(linked through `Next`); we model such a chain as a `List Entry`.  Each
node owns `Piece : char *` (modelled as `List Char`), `Value : int`
(modelled as `Int`; 0 means "no value"), and `Children` (the nested
chain).  The trie handle returned by `symtab_create` is the one-element
chain holding the root.  All public operations are translated from the
iterative loops in the source into recursion over the chain: advancing
`entry = entry->Next` becomes recursion on the tail, descending
`entry = entry->Children` becomes recursion on the nested list.
-/

/-- A trie node: label `Piece`, `Value` (0 = absent), `Children` chain. -/
inductive Entry : Type where
  | mk : List Char → Int → List Entry → Entry

/-- `Piece` field of a node. -/
def Entry.piece : Entry → List Char
  | .mk p _ _ => p

/-- `Value` field of a node. -/
def Entry.value : Entry → Int
  | .mk _ v _ => v

/-- `Children` field of a node. -/
def Entry.children : Entry → List Entry
  | .mk _ _ cs => cs

namespace Symtab

/-- The inner character-matching loop shared by all operations:
`while(*edge && *search && *edge == *search) { ++edge; ++search; }`.
Returns (matched common prefix, rest of the edge, rest of the search). -/
def splitCommon : List Char → List Char → List Char × List Char × List Char
  | [], ys => ([], [], ys)
  | x :: xs, [] => ([], x :: xs, [])
  | x :: xs, y :: ys =>
    if x = y then
      ((splitCommon xs ys).1.cons x, (splitCommon xs ys).2.1, (splitCommon xs ys).2.2)
    else ([], x :: xs, y :: ys)

/-- `symtab_create`: allocates the root with `Piece = ""` and
`Value = 42`; the handle is the chain consisting of just the root. -/
def symtab_create : List Entry := [Entry.mk [] 42 []]

/-- `symtab_get` (lines 299-332of the source), recursion over the chain.
On a fully matched edge: return the value if the key is exhausted at a
leaf, otherwise descend into the children with the remaining suffix.
On a not-fully-matched edge: advance to the next sibling. -/
def symtab_get : List Entry → List Char → Int
  | [], _ => 0
  | Entry.mk p v cs :: rest, ident =>
    match splitCommon p ident with
    | (_, [], sr) =>
      if sr = [] ∧ v ≠ 0 then v
      else symtab_get cs sr
    | (_, _ :: _, _) => symtab_get rest ident

/-- `symtab_put` (lines 194-256), the part after the `assert`.
Returns the updated chain and the previous value (`val`). -/
def symtab_put : List Entry → List Char → Int → List Entry × Int
  | [], _, _ => ([], 0)
  | Entry.mk p v cs :: rest, ident, value =>
    match splitCommon p ident with
    | (_, [], []) =>
      (Entry.mk p value cs :: rest, v)
    | (_, [], s1 :: sr) =>
      match cs with
      | [] =>
        (Entry.mk p v [Entry.mk (s1 :: sr) value []] :: rest, 0)
      | c :: cs2 =>
        let r := symtab_put (c :: cs2) (s1 :: sr) value
        (Entry.mk p v r.1 :: rest, r.2)
    | ([], _ :: _, sr) =>
      match rest with
      | [] =>
        ([Entry.mk p v cs, Entry.mk sr value []], 0)
      | r1 :: rest2 =>
        let r := symtab_put (r1 :: rest2) ident value
        (Entry.mk p v cs :: r.1, r.2)
    | (c1 :: cc, e1 :: er, []) =>
      (Entry.mk (c1 :: cc) value [Entry.mk (e1 :: er) v cs] :: rest, 0)
    | (c1 :: cc, e1 :: er, s1 :: sr) =>
      (Entry.mk (c1 :: cc) 0
        [Entry.mk (e1 :: er) v cs, Entry.mk (s1 :: sr) value []] :: rest, 0)

/-- `symtab_put` including the `assert(value != 0)` precondition check
on line 197: a zero value fails the assertion before any mutation. -/
def symtab_put_checked (t : List Entry) (ident : List Char) (value : Int) :
    Option (List Entry × Int) :=
  if value = 0 then none else some (symtab_put t ident value)

/-- `_entry_merge` (lines 125-134): the parent keeps its label extended
by the child's label and adopts the child's value and children. -/
def entryMerge (p : List Char) (c : Entry) : Entry :=
  Entry.mk (p ++ c.piece) c.value c.children

/-- The demotion branch of `_entry_remove` (lines 138-145): the entry
keeps its children, loses its value, and is merged with its child if it
now has exactly one. Only called with a nonempty children chain. -/
def entryDemote (p : List Char) (cs : List Entry) : Entry :=
  match cs with
  | [c] => entryMerge p c
  | _ => Entry.mk p 0 cs

/-- `_entry_remove` (lines 136-158) without the final parent check: a
childless entry is unlinked from its sibling chain (the `prev->Next` /
`parent->Children` patch), an entry with children is demoted in place. -/
def entryPatch (p : List Char) (cs rest : List Entry) : List Entry :=
  match cs with
  | [] => rest
  | c :: cs2 => entryDemote p (c :: cs2) :: rest

/-- The parent compaction check of `_entry_remove` (lines 160-163),
applied to the parent (fields `p`, `v`, children `cs` after the patch)
whenever the patch happened directly among its children (`found`). -/
def parentFix (p : List Char) (v : Int) (cs : List Entry) (found : Bool) : Entry :=
  if found then
    if v = 0 then
      match cs with
      | [c] => entryMerge p c
      | _ => Entry.mk p v cs
    else Entry.mk p v cs
  else Entry.mk p v cs

/-- `symtab_remove` below the root (lines 263-294 with a non-null
`parent`): recursion over a sibling chain. Returns the patched chain,
the removed value, and whether the terminal was patched directly in
this chain (in which case the caller, owning this chain as its
children, must apply `parentFix` to itself — the `_entry_remove`
call receives exactly that caller as `parent`). -/
def symtab_remove_chain : List Entry → List Char → List Entry × Int × Bool
  | [], _ => ([], 0, false)
  | Entry.mk p v cs :: rest, ident =>
    match splitCommon p ident with
    | (_, [], sr) =>
      if sr = [] ∧ v ≠ 0 then
        (entryPatch p cs rest, v, true)
      else
        let r := symtab_remove_chain cs sr
        (parentFix p v r.1 r.2.2 :: rest, r.2.1, false)
    | (_, _ :: _, _) =>
      let r := symtab_remove_chain rest ident
      (Entry.mk p v cs :: r.1, r.2.1, r.2.2)

/-- `symtab_remove` (lines 258-297), top level: while traversal stays in
the handle's own chain the tracked `parent` is still NULL, so finding
the terminal there makes `_entry_remove` dereference NULL (either
`parent->Children` on line 154 or `_is_leaf(parent)` on line 160):
modelled as `none`. Descending hands over to `symtab_remove_chain`
with the current node as parent. -/
def symtab_remove : List Entry → List Char → Option (List Entry × Int)
  | [], _ => some ([], 0)
  | Entry.mk p v cs :: rest, ident =>
    match splitCommon p ident with
    | (_, [], sr) =>
      if sr = [] ∧ v ≠ 0 then none
      else
        let r := symtab_remove_chain cs sr
        some (parentFix p v r.1 r.2.2 :: rest, r.2.1)
    | (_, _ :: _, _) =>
      match symtab_remove rest ident with
      | some r => some (Entry.mk p v cs :: r.1, r.2)
      | none => none

/-- `symtab_complete` (lines 334-378). The C function walks a mutable
buffer; `done` is the already-matched prefix (the distance the `ident`
pointer has advanced), `search` the rest of the buffer. Returns the
final buffer content and the `modified` flag. On a fully matched edge
with buffer left, descend; on an edge with no matched character,
advance to the next sibling; on an edge matched partway, copy the rest
of the edge over the buffer at the divergence point, truncate it there,
and report `modified`. -/
def symtab_complete : List Entry → List Char → List Char → List Char × Bool
  | [], done, search => (done ++ search, false)
  | Entry.mk p _ cs :: rest, done, search =>
    match splitCommon p search with
    | (_, [], []) => (done ++ search, false)
    | (c, [], s1 :: sr) => symtab_complete cs (done ++ c) (s1 :: sr)
    | ([], _ :: _, _) => symtab_complete rest done search
    | (c1 :: cc, e1 :: er, _sr) => (done ++ (c1 :: cc) ++ (e1 :: er), true)

/-- `symtab_complete` applied to a handle and a whole buffer. -/
def symtab_complete_buf (t : List Entry) (buf : List Char) : List Char × Bool :=
  symtab_complete t [] buf

/-- One public call against a trie handle. `get` and `complete` take the
trie as `const` and return the handle unchanged; a `remove` that hits
the NULL-parent dereference is kept as the unchanged handle (such calls
are ruled out for valid operation sequences). -/
inductive Op : Type where
  | put : List Char → Int → Op
  | remove : List Char → Op
  | get : List Char → Op
  | complete : List Char → Op

/-- Effect of one operation on the trie handle. -/
def applyOp (t : List Entry) : Op → List Entry
  | .put k v => (symtab_put t k v).1
  | .remove k =>
    match symtab_remove t k with
    | some r => r.1
    | none => t
  | .get _ => t
  | .complete _ => t

/-- A call that honours the documented interface contract: `put` takes a
non-empty key and a non-zero value, `remove` takes a non-empty key. -/
def ValidOp : Op → Prop
  | .put k v => k ≠ [] ∧ v ≠ 0
  | .remove k => k ≠ []
  | .get _ => True
  | .complete _ => True

/-- Run a sequence of operations against a trie handle. -/
def runOps (t : List Entry) (ops : List Op) : List Entry :=
  ops.foldl applyOp t

/-- Structural well-formedness of a sibling chain below the root: every
label is non-empty, sibling labels have pairwise distinct first
characters, recursively in all children. -/
def WFc : List Entry → Prop
  | [] => True
  | Entry.mk p _ cs :: rest =>
    p ≠ [] ∧ (∀ f ∈ rest, p.head? ≠ f.piece.head?) ∧ WFc cs ∧ WFc rest

/-- Compaction invariant, strong form: every non-terminal node has at
least two children. -/
def NT2 : List Entry → Prop
  | [] => True
  | Entry.mk _ v cs :: rest => (v = 0 → 2 ≤ cs.length) ∧ NT2 cs ∧ NT2 rest

/-- The compaction property as the spec states it: no non-terminal node
has exactly one child. -/
def NoLoneChild : List Entry → Prop
  | [] => True
  | Entry.mk _ v cs :: rest =>
    (v = 0 → cs.length ≠ 1) ∧ NoLoneChild cs ∧ NoLoneChild rest

/-- The sibling invariant as the spec states it: at every branching
point, sibling labels have pairwise distinct first characters. -/
def SibDistinct : List Entry → Prop
  | [] => True
  | Entry.mk p _ cs :: rest =>
    (∀ f ∈ rest, p.head? ≠ f.piece.head?) ∧ SibDistinct cs ∧ SibDistinct rest

/-- Shape invariant of every reachable trie handle: a single root with
empty label, a non-zero value and well-formed, compacted children. -/
def RootInv (t : List Entry) : Prop :=
  ∃ v cs, t = [Entry.mk [] v cs] ∧ v ≠ 0 ∧ WFc cs ∧ NT2 cs

/-! ### Properties of the common-prefix loop -/

theorem splitCommon_spec (xs ys : List Char) :
    xs = (splitCommon xs ys).1 ++ (splitCommon xs ys).2.1 ∧
    ys = (splitCommon xs ys).1 ++ (splitCommon xs ys).2.2 ∧
    ((splitCommon xs ys).2.1 = [] ∨ (splitCommon xs ys).2.2 = [] ∨
      (splitCommon xs ys).2.1.head? ≠ (splitCommon xs ys).2.2.head?) := by
  induction xs, ys using splitCommon.induct with
  | case1 ys => simp [splitCommon]
  | case2 x xs => simp [splitCommon]
  | case3 xs y ys ih =>
    simpa [splitCommon] using ih
  | case4 x xs y ys h =>
    simp [splitCommon, h, List.head?]

/-- Reconstruction: when the tails cannot match further, `splitCommon`
splits exactly at the given common prefix. -/
theorem splitCommon_app (c a b : List Char)
    (h : a = [] ∨ b = [] ∨ a.head? ≠ b.head?) :
    splitCommon (c ++ a) (c ++ b) = (c, a, b) := by
  induction c with
  | nil =>
    rcases h with h | h | h
    · subst h
      cases b <;> simp [splitCommon]
    · subst h
      cases a <;> simp [splitCommon]
    · cases a with
      | nil => simp [splitCommon]
      | cons x xs =>
        cases b with
        | nil => simp [splitCommon]
        | cons y ys =>
          have : x ≠ y := by simpa [List.head?] using h
          simp [splitCommon, this]
  | cons x c ih => simp [splitCommon, ih]

/-- Prepending a shared prefix to both sides shifts it into the common
component. -/
theorem splitCommon_shift (c a b : List Char) :
    splitCommon (c ++ a) (c ++ b) =
      (c ++ (splitCommon a b).1, (splitCommon a b).2.1, (splitCommon a b).2.2) := by
  induction c with
  | nil => simp
  | cons x c ih => simp [splitCommon, ih]

/-- Extending the edge beyond an already-found divergence point does not
change the divergence. -/
theorem splitCommon_ext (xs k t : List Char)
    (h : (splitCommon xs k).2.1 ≠ []) :
    splitCommon (xs ++ t) k =
      ((splitCommon xs k).1, (splitCommon xs k).2.1 ++ t, (splitCommon xs k).2.2) := by
  induction xs, k using splitCommon.induct with
  | case1 ys => simp [splitCommon] at h
  | case2 x xs => simp [splitCommon]
  | case3 xs y ys ih =>
    simp only [splitCommon] at h
    have hx := ih h
    simp [splitCommon, hx]
  | case4 x xs y ys hxy => simp [splitCommon, hxy]

/-- Differing (or absent) first characters mean no common prefix. -/
theorem splitCommon_no_match (p k : List Char) (hp : p ≠ [])
    (h : p.head? ≠ k.head?) : splitCommon p k = ([], p, k) := by
  cases p with
  | nil => exact absurd rfl hp
  | cons x xs =>
    cases k with
    | nil => simp [splitCommon]
    | cons y ys =>
      have : x ≠ y := by simpa [List.head?] using h
      simp [splitCommon, this]

theorem splitCommon_self (p : List Char) : splitCommon p p = (p, [], []) := by
  simpa using splitCommon_app p [] [] (Or.inl rfl)

theorem splitCommon_self_app (p t : List Char) :
    splitCommon p (p ++ t) = (p, [], t) := by
  simpa using splitCommon_app p [] t (Or.inl rfl)

theorem splitCommon_app_self (p t : List Char) :
    splitCommon (p ++ t) p = (p, t, []) := by
  simpa using splitCommon_app p t [] (Or.inr (Or.inl rfl))

/-! ### Basic lookup lemmas -/

theorem get_nil_chain (k : List Char) : symtab_get [] k = 0 := by
  simp [symtab_get]

/-- A key whose first character matches no label in the chain (in
particular any key at a chain of non-empty labels none of which starts
like it) is not found. -/
theorem get_no_head (chain : List Entry) (k : List Char)
    (h : ∀ f ∈ chain, f.piece ≠ [] ∧ f.piece.head? ≠ k.head?) :
    symtab_get chain k = 0 := by
  induction chain with
  | nil => simp [symtab_get]
  | cons e rest ih =>
    obtain ⟨p, v, cs⟩ := e
    obtain ⟨hp, hh⟩ := h _ (List.mem_cons_self _ _)
    have hs : splitCommon p k = ([], p, k) :=
      splitCommon_no_match p k hp (by simpa [Entry.piece] using hh)
    cases p with
    | nil => exact absurd rfl hp
    | cons x xs =>
      simp only [symtab_get, hs]
      exact ih fun f hf => h f (List.mem_cons_of_mem _ hf)

/-- Lookup of a different key in a single-leaf chain fails. -/
theorem get_single_ne (k kp : List Char) (v : Int) (h : k ≠ kp) :
    symtab_get [Entry.mk kp v []] k = 0 := by
  obtain ⟨h1, h2, _⟩ := splitCommon_spec kp k
  rcases hsc : splitCommon kp k with ⟨c, a, b⟩
  rw [hsc] at h1 h2
  cases a with
  | nil =>
    cases b with
    | nil =>
      simp only [List.append_nil] at h1 h2
      exact absurd (h2.trans h1.symm) h
    | cons b1 bs => simp [symtab_get, hsc]
  | cons a1 as => simp [symtab_get, hsc]

/-! ### Completion: the buffer changes exactly when `modified` is
returned -/

theorem complete_false_eq (chain : List Entry) (done search : List Char)
    (h : (symtab_complete chain done search).2 = false) :
    (symtab_complete chain done search).1 = done ++ search := by
  induction chain, done, search using symtab_complete.induct with
  | case1 done search => simp [symtab_complete]
  | case2 p a cs rest done search c hs => simp [symtab_complete, hs]
  | case3 p a cs rest done search c s1 sr hs ih =>
    have hse : search = c ++ (s1 :: sr) := by
      have h2 := (splitCommon_spec p search).2.1
      rw [hs] at h2
      exact h2
    simp only [symtab_complete, hs] at h ⊢
    rw [ih h, hse, List.append_assoc]
  | case4 p a cs rest done search h1 t1 snd hs ih =>
    simp only [symtab_complete, hs] at h ⊢
    exact ih h
  | case5 p a cs rest done search c1 cc e1 er sr hs =>
    simp [symtab_complete, hs] at h

theorem complete_true_ne (chain : List Entry) (done search : List Char)
    (h : (symtab_complete chain done search).2 = true) :
    (symtab_complete chain done search).1 ≠ done ++ search := by
  induction chain, done, search using symtab_complete.induct with
  | case1 done search => simp [symtab_complete] at h
  | case2 p a cs rest done search c hs => simp [symtab_complete, hs] at h
  | case3 p a cs rest done search c s1 sr hs ih =>
    have hse : search = c ++ (s1 :: sr) := by
      have h2 := (splitCommon_spec p search).2.1
      rw [hs] at h2
      exact h2
    simp only [symtab_complete, hs] at h ⊢
    rw [hse, ← List.append_assoc]
    exact ih h
  | case4 p a cs rest done search h1 t1 snd hs ih =>
    simp only [symtab_complete, hs] at h ⊢
    exact ih h
  | case5 p a cs rest done search c1 cc e1 er sr hs =>
    have hse : search = (c1 :: cc) ++ sr := by
      have h2 := (splitCommon_spec p search).2.1
      rw [hs] at h2
      exact h2
    have hmm : (e1 :: er : List Char) = [] ∨ sr = [] ∨
        (e1 :: er : List Char).head? ≠ sr.head? := by
      have h3 := (splitCommon_spec p search).2.2
      rw [hs] at h3
      exact h3
    simp only [symtab_complete, hs]
    rw [hse]
    intro hcon
    have htl : (e1 :: er : List Char) = sr := by
      have h' : done ++ ((c1 :: cc) ++ (e1 :: er)) = done ++ ((c1 :: cc) ++ sr) := by
        simpa [List.append_assoc] using hcon
      exact List.append_cancel_left (List.append_cancel_left h')
    rcases hmm with hmm | hmm | hmm
    · exact List.cons_ne_nil _ _ hmm
    · rw [hmm] at htl
      exact List.cons_ne_nil _ _ htl
    · rw [htl] at hmm
      exact hmm rfl

/-! ### Removal: returned value agrees with lookup; a missed key leaves
the chain untouched -/

theorem remove_chain_val (cs : List Entry) (k : List Char) :
    (symtab_remove_chain cs k).2.1 = symtab_get cs k := by
  induction cs, k using symtab_remove_chain.induct with
  | case1 k => simp [symtab_remove_chain, symtab_get]
  | case2 p v cs rest ident c sr hs hc =>
    obtain ⟨hsr, hv⟩ := hc
    subst hsr
    simp [symtab_remove_chain, symtab_get, hs, hv]
  | case3 p v cs rest ident c sr hs hc ih =>
    simp [symtab_remove_chain, symtab_get, hs, hc, ih]
  | case4 p v cs rest ident c h1 t1 snd hs ih =>
    simp [symtab_remove_chain, symtab_get, hs, ih]

theorem remove_chain_notfound (cs : List Entry) (k : List Char)
    (h : symtab_get cs k = 0) :
    symtab_remove_chain cs k = (cs, 0, false) := by
  induction cs, k using symtab_remove_chain.induct with
  | case1 k => simp [symtab_remove_chain]
  | case2 p v cs rest ident c sr hs hc =>
    obtain ⟨hsr, hv⟩ := hc
    subst hsr
    simp [symtab_get, hs, hv] at h
  | case3 p v cs rest ident c sr hs hc ih =>
    simp only [symtab_get, hs, if_neg hc] at h
    simp [symtab_remove_chain, hs, hc, ih h, parentFix]
  | case4 p v cs rest ident c h1 t1 snd hs ih =>
    simp only [symtab_get, hs] at h
    simp [symtab_remove_chain, hs, ih h]

theorem remove_val (t : List Entry) (k : List Char) (r : List Entry × Int)
    (h : symtab_remove t k = some r) : r.2 = symtab_get t k := by
  induction t, k using symtab_remove.induct generalizing r with
  | case1 k =>
    simp [symtab_remove] at h
    simp [← h, symtab_get]
  | case2 p v cs rest ident c sr hs hc =>
    simp [symtab_remove, hs, hc] at h
  | case3 p v cs rest ident c sr hs hc =>
    simp only [symtab_remove, hs, if_neg hc, Option.some.injEq] at h
    simp only [symtab_get, hs, if_neg hc]
    rw [← h]
    exact remove_chain_val cs sr
  | case4 p v cs rest ident c h1 t1 snd hs r0 hr ih =>
    simp only [symtab_remove, hs, hr, Option.some.injEq] at h
    simp only [symtab_get, hs]
    rw [← h]
    simpa using ih r0 hr
  | case5 p v cs rest ident c h1 t1 snd hs hr ih =>
    simp [symtab_remove, hs, hr] at h

theorem remove_notfound (t : List Entry) (k : List Char)
    (h : symtab_get t k = 0) : symtab_remove t k = some (t, 0) := by
  induction t, k using symtab_remove.induct with
  | case1 k => simp [symtab_remove]
  | case2 p v cs rest ident c sr hs hc =>
    obtain ⟨hsr, hv⟩ := hc
    subst hsr
    simp [symtab_get, hs, hv] at h
  | case3 p v cs rest ident c sr hs hc =>
    simp only [symtab_get, hs, if_neg hc] at h
    simp [symtab_remove, hs, hc, remove_chain_notfound cs sr h, parentFix]
  | case4 p v cs rest ident c h1 t1 snd hs r0 hr ih =>
    simp only [symtab_get, hs] at h
    have hre := ih h
    rw [hr] at hre
    simp only [Option.some.injEq] at hre
    subst hre
    simp [symtab_remove, hs, hr]
  | case5 p v cs rest ident c h1 t1 snd hs hr ih =>
    simp only [symtab_get, hs] at h
    rw [ih h] at hr
    exact absurd hr (by simp)

/-- On a root-shaped handle, removal of a non-empty key always descends
into the children with a non-null parent, so it never reaches the
NULL-parent dereference. -/
theorem remove_root_some (v : Int) (cs : List Entry) (k : List Char)
    (hk : k ≠ []) :
    symtab_remove [Entry.mk [] v cs] k =
      some ([parentFix [] v (symtab_remove_chain cs k).1
              (symtab_remove_chain cs k).2.2],
            (symtab_remove_chain cs k).2.1) := by
  have h0 : splitCommon [] k = ([], [], k) := by simp [splitCommon]
  simp [symtab_remove, h0, hk]

/-! ### Round trip: `put` then `get` -/

/-- `symtab_put` never empties a chain. -/
theorem put_ne_nil (cs : List Entry) (k : List Char) (v : Int)
    (h : cs ≠ []) : (symtab_put cs k v).1 ≠ [] := by
  obtain ⟨e, rest⟩ := List.exists_cons_of_ne_nil h
  obtain ⟨rest, rfl⟩ := rest
  obtain ⟨p, v0, cs0⟩ := e
  rcases hsc : splitCommon p k with ⟨c, a, b⟩
  cases a with
  | nil =>
    cases b with
    | nil => simp [symtab_put, hsc]
    | cons b1 bs =>
      cases cs0 with
      | nil => simp [symtab_put, hsc]
      | cons c0 cs2 => simp [symtab_put, hsc]
  | cons a1 as =>
    cases c with
    | nil =>
      cases rest with
      | nil => simp [symtab_put, hsc]
      | cons r1 rest2 => simp [symtab_put, hsc]
    | cons c1 cc =>
      cases b with
      | nil => simp [symtab_put, hsc]
      | cons b1 bs => simp [symtab_put, hsc]

theorem get_put (cs : List Entry) (k : List Char) (v : Int)
    (hcs : cs ≠ []) (hv : v ≠ 0) :
    symtab_get (symtab_put cs k v).1 k = v := by
  induction cs, k, v using symtab_put.induct with
  | case1 k v => exact absurd rfl hcs
  | case2 p v0 cs rest ident value c hs =>
    have h1 := (splitCommon_spec p ident).1
    have h2 := (splitCommon_spec p ident).2.1
    rw [hs] at h1 h2
    simp only [List.append_nil] at h1 h2
    simp [symtab_put, symtab_get, hs, hv]
  | case3 p v0 rest ident value c s1 sr hs =>
    simp [symtab_put, symtab_get, hs, splitCommon_self, hv]
  | case4 p v0 rest ident value c s1 sr hs c0 cs2 ih =>
    have hne := put_ne_nil (c0 :: cs2) (s1 :: sr) value (by simp)
    simp only [symtab_put, hs]
    simp only [symtab_get, hs]
    simp only [List.cons_ne_nil, and_false, false_and, if_false]
    exact ih (by simp) hv
  | case5 p v0 cs ident value h1 t1 sr hs =>
    have h2 := (splitCommon_spec p ident).2.1
    rw [hs] at h2
    simp only [List.nil_append] at h2
    subst h2
    simp [symtab_put, symtab_get, hs, splitCommon_self, hv]
  | case6 p v0 cs ident value h1 t1 sr hs r1 rest2 ih =>
    simp only [symtab_put, hs]
    simp only [symtab_get, hs]
    exact ih (by simp) hv
  | case7 p v0 cs rest ident value c1 cc e1 er hs =>
    have h2 := (splitCommon_spec p ident).2.1
    rw [hs] at h2
    simp only [List.append_nil] at h2
    subst h2
    simp [symtab_put, symtab_get, hs, splitCommon_self, hv]
  | case8 p v0 cs rest ident value c1 cc e1 er s1 sr hs =>
    have h2 : ident = (c1 :: cc) ++ (s1 :: sr) := by
      have h2a := (splitCommon_spec p ident).2.1
      rw [hs] at h2a
      exact h2a
    have h3 := (splitCommon_spec p ident).2.2
    rw [hs] at h3
    have hmm : (e1 :: er : List Char).head? ≠ (s1 :: sr : List Char).head? := by
      rcases h3 with h3 | h3 | h3
      · exact absurd h3 (List.cons_ne_nil _ _)
      · exact absurd h3 (List.cons_ne_nil _ _)
      · exact h3
    have hnm : splitCommon (e1 :: er) (s1 :: sr) =
        ([], e1 :: er, s1 :: sr) :=
      splitCommon_no_match _ _ (List.cons_ne_nil _ _) hmm
    have hsa : splitCommon (c1 :: cc) (c1 :: (cc ++ (s1 :: sr))) =
        (c1 :: cc, [], s1 :: sr) := by
      simpa using splitCommon_self_app (c1 :: cc) (s1 :: sr)
    simp only [symtab_put, hs]
    rw [h2]
    simp [symtab_get, hsa, hnm, splitCommon_self, hv]

/-! ### Overwrite: a second `put` of the same key collapses onto a
single `put` and returns the first value -/

theorem put_put (cs : List Entry) (k : List Char) (v1 v2 : Int)
    (hcs : cs ≠ []) :
    symtab_put (symtab_put cs k v1).1 k v2 = ((symtab_put cs k v2).1, v1) := by
  induction cs, k, v1 using symtab_put.induct with
  | case1 k v1 => exact absurd rfl hcs
  | case2 p v0 cs rest ident value c hs =>
    simp [symtab_put, hs]
  | case3 p v0 rest ident value c s1 sr hs =>
    simp [symtab_put, hs, splitCommon_self]
  | case4 p v0 rest ident value c s1 sr hs c0 cs2 ih =>
    have hne := put_ne_nil (c0 :: cs2) (s1 :: sr) value (by simp)
    obtain ⟨r1, rs, hR⟩ := List.exists_cons_of_ne_nil hne
    have ih' := ih (by simp)
    simp only [symtab_put, hs]
    rw [hR]
    simp only [symtab_put, hs]
    rw [← hR, ih']
  | case5 p v0 cs ident value h1 t1 sr hs =>
    have h2 : ident = sr := by
      have h2a := (splitCommon_spec p ident).2.1
      rw [hs] at h2a
      simpa using h2a
    subst h2
    simp [symtab_put, hs, splitCommon_self]
  | case6 p v0 cs ident value h1 t1 sr hs r1 rest2 ih =>
    have hne := put_ne_nil (r1 :: rest2) ident value (by simp)
    obtain ⟨q1, qs, hR⟩ := List.exists_cons_of_ne_nil hne
    have ih' := ih (by simp)
    simp only [symtab_put, hs]
    rw [hR]
    simp only [symtab_put, hs]
    rw [← hR, ih']
  | case7 p v0 cs rest ident value c1 cc e1 er hs =>
    have h2 : ident = c1 :: cc := by
      have h2a := (splitCommon_spec p ident).2.1
      rw [hs] at h2a
      simpa using h2a
    subst h2
    simp [symtab_put, hs, splitCommon_self]
  | case8 p v0 cs rest ident value c1 cc e1 er s1 sr hs =>
    have h2 : ident = (c1 :: cc) ++ (s1 :: sr) := by
      have h2a := (splitCommon_spec p ident).2.1
      rw [hs] at h2a
      exact h2a
    have h3 := (splitCommon_spec p ident).2.2
    rw [hs] at h3
    have hmm : (e1 :: er : List Char).head? ≠ (s1 :: sr : List Char).head? := by
      rcases h3 with h3 | h3 | h3
      · exact absurd h3 (List.cons_ne_nil _ _)
      · exact absurd h3 (List.cons_ne_nil _ _)
      · exact h3
    have hnm : splitCommon (e1 :: er) (s1 :: sr) = ([], e1 :: er, s1 :: sr) :=
      splitCommon_no_match _ _ (List.cons_ne_nil _ _) hmm
    have hsa : splitCommon (c1 :: cc) (c1 :: (cc ++ (s1 :: sr))) =
        (c1 :: cc, [], s1 :: sr) := by
      simpa using splitCommon_self_app (c1 :: cc) (s1 :: sr)
    simp only [symtab_put, hs]
    rw [h2]
    simp [symtab_put, hsa, hnm, splitCommon_self]

/-! ### Preservation of the structural invariants -/

theorem head_append_ne_nil (p q : List Char) (h : p ≠ []) :
    (p ++ q).head? = p.head? := by
  cases p with
  | nil => exact absurd rfl h
  | cons x xs => simp

/-- `put` keeps or grows the sibling chain. -/
theorem put_len (cs : List Entry) (k : List Char) (v : Int) :
    cs.length ≤ (symtab_put cs k v).1.length := by
  induction cs, k, v using symtab_put.induct with
  | case1 k v => simp [symtab_put]
  | case2 p v0 cs rest ident value c hs => simp [symtab_put, hs]
  | case3 p v0 rest ident value c s1 sr hs => simp [symtab_put, hs]
  | case4 p v0 rest ident value c s1 sr hs c0 cs2 ih => simp [symtab_put, hs]
  | case5 p v0 cs ident value h1 t1 sr hs => simp [symtab_put, hs]
  | case6 p v0 cs ident value h1 t1 sr hs r1 rest2 ih =>
    simp only [symtab_put, hs, List.length_cons]
    exact Nat.succ_le_succ ih
  | case7 p v0 cs rest ident value c1 cc e1 er hs => simp [symtab_put, hs]
  | case8 p v0 cs rest ident value c1 cc e1 er s1 sr hs =>
    simp [symtab_put, hs]

/-- `put` with a non-zero value preserves the strong compaction
invariant. -/
theorem put_nt2 (cs : List Entry) (k : List Char) (v : Int)
    (hn : NT2 cs) (hv : v ≠ 0) : NT2 (symtab_put cs k v).1 := by
  induction cs, k, v using symtab_put.induct with
  | case1 k v => simpa [symtab_put] using hn
  | case2 p v0 cs rest ident value c hs =>
    simp only [NT2] at hn
    simp [symtab_put, hs, NT2, hv, hn.2.1, hn.2.2]
  | case3 p v0 rest ident value c s1 sr hs =>
    simp only [NT2] at hn
    have hv0 : v0 ≠ 0 := by
      intro h0
      simpa using hn.1 h0
    simp [symtab_put, hs, NT2, hv, hv0, hn.2.2]
  | case4 p v0 rest ident value c s1 sr hs c0 cs2 ih =>
    simp only [NT2] at hn
    have hlen := put_len (c0 :: cs2) (s1 :: sr) value
    have hihn := ih hn.2.1 hv
    simp only [symtab_put, hs, NT2]
    exact ⟨fun h0 => le_trans (hn.1 h0) hlen, hihn, hn.2.2⟩
  | case5 p v0 cs ident value h1 t1 sr hs =>
    simp only [NT2] at hn
    simp [symtab_put, hs, NT2, hv, hn.2.1, hn.2.2]
    exact hn.1
  | case6 p v0 cs ident value h1 t1 sr hs r1 rest2 ih =>
    simp only [NT2] at hn
    have hihn := ih hn.2.2 hv
    simp only [symtab_put, hs, NT2]
    exact ⟨hn.1, hn.2.1, hihn⟩
  | case7 p v0 cs rest ident value c1 cc e1 er hs =>
    simp only [NT2] at hn
    simp [symtab_put, hs, NT2, hv, hn.2.1, hn.2.2]
    exact hn.1
  | case8 p v0 cs rest ident value c1 cc e1 er s1 sr hs =>
    simp only [NT2] at hn
    simp [symtab_put, hs, NT2, hv, hn.2.1, hn.2.2]
    exact hn.1

/-- A zero-length match with a non-empty key means the edge and the key
start with different characters (this is what makes advancing to the
next sibling sound). -/
theorem splitCommon_zero_heads (p k : List Char) (hk : k ≠ [])
    (h1 : Char) (t1 sr : List Char)
    (hs : splitCommon p k = ([], h1 :: t1, sr)) :
    p = h1 :: t1 ∧ k = sr ∧ p.head? ≠ k.head? := by
  have ha := (splitCommon_spec p k).1
  rw [hs] at ha
  simp only [List.nil_append] at ha
  have hb := (splitCommon_spec p k).2.1
  rw [hs] at hb
  simp only [List.nil_append] at hb
  have hc := (splitCommon_spec p k).2.2
  rw [hs] at hc
  refine ⟨ha, hb, ?_⟩
  rcases hc with hc | hc | hc
  · exact absurd hc (List.cons_ne_nil _ _)
  · rw [← hb] at hc
    exact absurd hc hk
  · rw [ha, hb]
    exact hc

/-- `put` of a non-empty key preserves well-formedness; every label in
the new chain starts like an old sibling label or like the key. -/
theorem put_wf (cs : List Entry) (k : List Char) (v : Int)
    (hw : WFc cs) (hk : k ≠ []) :
    WFc (symtab_put cs k v).1 ∧
    ∀ f ∈ (symtab_put cs k v).1,
      f.piece.head? = k.head? ∨ ∃ e ∈ cs, f.piece.head? = e.piece.head? := by
  induction cs, k, v using symtab_put.induct with
  | case1 k v => simp [symtab_put, WFc]
  | case2 p v0 cs rest ident value c hs =>
    simp only [WFc] at hw
    simp only [symtab_put, hs]
    refine ⟨by simp only [WFc]; exact hw, ?_⟩
    intro f hf
    rcases List.mem_cons.mp hf with rfl | hf
    · exact Or.inr ⟨Entry.mk p v0 cs, List.mem_cons_self _ _, rfl⟩
    · exact Or.inr ⟨f, List.mem_cons_of_mem _ hf, rfl⟩
  | case3 p v0 rest ident value c s1 sr hs =>
    simp only [WFc] at hw
    simp only [symtab_put, hs]
    constructor
    · simp only [WFc]
      exact ⟨hw.1, hw.2.1, ⟨List.cons_ne_nil _ _, by simp, trivial, trivial⟩,
        hw.2.2.2⟩
    · intro f hf
      rcases List.mem_cons.mp hf with rfl | hf
      · exact Or.inr ⟨Entry.mk p v0 [], List.mem_cons_self _ _, rfl⟩
      · exact Or.inr ⟨f, List.mem_cons_of_mem _ hf, rfl⟩
  | case4 p v0 rest ident value c s1 sr hs c0 cs2 ih =>
    simp only [WFc] at hw
    obtain ⟨ihw, _⟩ := ih hw.2.2.1 (by simp)
    simp only [symtab_put, hs]
    constructor
    · simp only [WFc]
      exact ⟨hw.1, hw.2.1, ihw, hw.2.2.2⟩
    · intro f hf
      rcases List.mem_cons.mp hf with rfl | hf
      · exact Or.inr ⟨Entry.mk p v0 (c0 :: cs2), List.mem_cons_self _ _, rfl⟩
      · exact Or.inr ⟨f, List.mem_cons_of_mem _ hf, rfl⟩
  | case5 p v0 cs ident value h1 t1 sr hs =>
    obtain ⟨hpe, hke, hph⟩ := splitCommon_zero_heads p ident hk h1 t1 sr hs
    simp only [WFc] at hw
    simp only [symtab_put, hs]
    constructor
    · simp only [WFc]
      refine ⟨hw.1, ?_, hw.2.2.1, ?_⟩
      · intro f hf
        simp only [List.mem_singleton] at hf
        subst hf
        simp only [Entry.piece]
        rw [← hke]
        exact hph
      · refine ⟨?_, by simp, trivial, trivial⟩
        rw [← hke]
        exact hk
    · intro f hf
      rcases List.mem_cons.mp hf with rfl | hf
      · exact Or.inr ⟨Entry.mk p v0 cs, List.mem_cons_self _ _, rfl⟩
      · simp only [List.mem_singleton] at hf
        subst hf
        refine Or.inl ?_
        simp only [Entry.piece]
        rw [hke]
  | case6 p v0 cs ident value h1 t1 sr hs r1 rest2 ih =>
    obtain ⟨hpe, hke, hph⟩ := splitCommon_zero_heads p ident hk h1 t1 sr hs
    simp only [WFc] at hw
    obtain ⟨ihw, ihm⟩ := ih hw.2.2.2 hk
    simp only [symtab_put, hs]
    constructor
    · simp only [WFc]
      refine ⟨hw.1, ?_, hw.2.2.1, ihw⟩
      intro f hf
      rcases ihm f hf with hm | ⟨e, he, hm⟩
      · rw [hm]
        exact hph
      · rw [hm]
        exact hw.2.1 e he
    · intro f hf
      rcases List.mem_cons.mp hf with rfl | hf
      · exact Or.inr ⟨Entry.mk p v0 cs, List.mem_cons_self _ _, rfl⟩
      · rcases ihm f hf with hm | ⟨e, he, hm⟩
        · exact Or.inl hm
        · exact Or.inr ⟨e, List.mem_cons_of_mem _ he, hm⟩
  | case7 p v0 cs rest ident value c1 cc e1 er hs =>
    have hpe : p = (c1 :: cc) ++ (e1 :: er) := by
      have := (splitCommon_spec p ident).1
      rw [hs] at this
      exact this
    have hph : p.head? = some c1 := by rw [hpe]; rfl
    simp only [WFc] at hw
    simp only [symtab_put, hs]
    constructor
    · simp only [WFc]
      refine ⟨List.cons_ne_nil _ _, ?_, ?_, hw.2.2.2⟩
      · intro f hf
        have := hw.2.1 f hf
        rw [hph] at this
        simpa using this
      · exact ⟨List.cons_ne_nil _ _, by simp, hw.2.2.1, trivial⟩
    · intro f hf
      rcases List.mem_cons.mp hf with rfl | hf
      · refine Or.inr ⟨Entry.mk p v0 cs, List.mem_cons_self _ _, ?_⟩
        simp only [Entry.piece]
        rw [hph]
        rfl
      · exact Or.inr ⟨f, List.mem_cons_of_mem _ hf, rfl⟩
  | case8 p v0 cs rest ident value c1 cc e1 er s1 sr hs =>
    have hpe : p = (c1 :: cc) ++ (e1 :: er) := by
      have := (splitCommon_spec p ident).1
      rw [hs] at this
      exact this
    have hph : p.head? = some c1 := by rw [hpe]; rfl
    have h3 := (splitCommon_spec p ident).2.2
    rw [hs] at h3
    have hmm : (e1 :: er : List Char).head? ≠ (s1 :: sr : List Char).head? := by
      rcases h3 with h3 | h3 | h3
      · exact absurd h3 (List.cons_ne_nil _ _)
      · exact absurd h3 (List.cons_ne_nil _ _)
      · exact h3
    simp only [WFc] at hw
    simp only [symtab_put, hs]
    constructor
    · simp only [WFc]
      refine ⟨List.cons_ne_nil _ _, ?_, ?_, hw.2.2.2⟩
      · intro f hf
        have := hw.2.1 f hf
        rw [hph] at this
        simpa using this
      · refine ⟨List.cons_ne_nil _ _, ?_, hw.2.2.1,
          List.cons_ne_nil _ _, by simp, trivial, trivial⟩
        intro f hf
        simp only [List.mem_singleton] at hf
        subst hf
        simpa [Entry.piece] using hmm
    · intro f hf
      rcases List.mem_cons.mp hf with rfl | hf
      · refine Or.inr ⟨Entry.mk p v0 cs, List.mem_cons_self _ _, ?_⟩
        simp only [Entry.piece]
        rw [hph]
        rfl
      · exact Or.inr ⟨f, List.mem_cons_of_mem _ hf, rfl⟩

/-! ### `parentFix` case analysis helpers -/

theorem parentFix_false (p : List Char) (v : Int) (x : List Entry) :
    parentFix p v x false = Entry.mk p v x := by
  simp [parentFix]

theorem parentFix_nonzero (p : List Char) (v : Int) (x : List Entry)
    (b : Bool) (hv : v ≠ 0) : parentFix p v x b = Entry.mk p v x := by
  cases b <;> simp [parentFix, hv]

theorem parentFix_merge (p : List Char) (c : Entry) :
    parentFix p 0 [c] true = entryMerge p c := by
  simp [parentFix]

theorem parentFix_zero_big (p : List Char) (x : List Entry)
    (h : x.length ≠ 1) : parentFix p 0 x true = Entry.mk p 0 x := by
  cases x with
  | nil => simp [parentFix]
  | cons c cs =>
    cases cs with
    | nil => simp at h
    | cons c1 cs2 => simp [parentFix]

/-- `remove` preserves well-formedness; every label in the patched
chain starts like some old sibling label. -/
theorem remove_wf (cs : List Entry) (k : List Char) (hw : WFc cs) :
    WFc (symtab_remove_chain cs k).1 ∧
    ∀ f ∈ (symtab_remove_chain cs k).1,
      ∃ e ∈ cs, f.piece.head? = e.piece.head? := by
  induction cs, k using symtab_remove_chain.induct with
  | case1 k => simp [symtab_remove_chain, WFc]
  | case2 p v cs rest ident c sr hs hc =>
    simp only [WFc] at hw
    simp only [symtab_remove_chain, hs, if_pos hc]
    cases cs with
    | nil =>
      simp only [entryPatch]
      exact ⟨hw.2.2.2, fun f hf => ⟨f, List.mem_cons_of_mem _ hf, rfl⟩⟩
    | cons c0 cs2 =>
      cases cs2 with
      | nil =>
        obtain ⟨cp, cv, ccs⟩ := c0
        have hwc : cp ≠ [] ∧ WFc ccs := by
          have := hw.2.2.1
          simp only [WFc] at this
          exact ⟨this.1, this.2.2.1⟩
        have hh : (p ++ cp).head? = p.head? := head_append_ne_nil p cp hw.1
        simp only [entryPatch, entryDemote, entryMerge, Entry.piece,
          Entry.value, Entry.children]
        constructor
        · simp only [WFc]
          refine ⟨by simp [hw.1], ?_, hwc.2, hw.2.2.2⟩
          intro f hf
          rw [hh]
          exact hw.2.1 f hf
        · intro f hf
          rcases List.mem_cons.mp hf with rfl | hf
          · exact ⟨Entry.mk p v [Entry.mk cp cv ccs], List.mem_cons_self _ _,
              by simpa [Entry.piece] using hh⟩
          · exact ⟨f, List.mem_cons_of_mem _ hf, rfl⟩
      | cons c1 cs3 =>
        simp only [entryPatch, entryDemote]
        constructor
        · simp only [WFc]
          exact ⟨hw.1, hw.2.1, hw.2.2.1, hw.2.2.2⟩
        · intro f hf
          rcases List.mem_cons.mp hf with rfl | hf
          · exact ⟨Entry.mk p v (c0 :: c1 :: cs3), List.mem_cons_self _ _, rfl⟩
          · exact ⟨f, List.mem_cons_of_mem _ hf, rfl⟩
  | case3 p v cs rest ident c sr hs hc ih =>
    simp only [WFc] at hw
    obtain ⟨ihw, _⟩ := ih hw.2.2.1
    simp only [symtab_remove_chain, hs, if_neg hc]
    have hfix : ∀ b : Bool,
        ((parentFix p v (symtab_remove_chain cs sr).1 b).piece.head? = p.head? ∧
          (parentFix p v (symtab_remove_chain cs sr).1 b).piece ≠ [] ∧
          WFc (parentFix p v (symtab_remove_chain cs sr).1 b).children) := by
      intro b
      cases b with
      | false =>
        rw [parentFix_false]
        exact ⟨rfl, hw.1, ihw⟩
      | true =>
        by_cases hv : v = 0
        · subst hv
          rcases hx : (symtab_remove_chain cs sr).1 with _ | ⟨c0, cs2⟩
          · rw [parentFix_zero_big p [] (by simp)]
            rw [hx] at ihw
            exact ⟨rfl, hw.1, ihw⟩
          · rcases cs2 with _ | ⟨c1, cs3⟩
            · rw [parentFix_merge]
              obtain ⟨cp, cv, ccs⟩ := c0
              rw [hx] at ihw
              simp only [WFc] at ihw
              simp only [entryMerge, Entry.piece, Entry.value, Entry.children]
              exact ⟨head_append_ne_nil p cp hw.1, by simp [hw.1], ihw.2.2.1⟩
            · rw [parentFix_zero_big p _ (by simp)]
              rw [hx] at ihw
              exact ⟨rfl, hw.1, ihw⟩
        · rw [parentFix_nonzero _ _ _ _ hv]
          exact ⟨rfl, hw.1, ihw⟩
    obtain ⟨hf1, hf2, hf3⟩ := hfix (symtab_remove_chain cs sr).2.2
    constructor
    · rcases hfx : parentFix p v (symtab_remove_chain cs sr).1
          (symtab_remove_chain cs sr).2.2 with ⟨q, w, qcs⟩
      rw [hfx] at hf1 hf2 hf3
      simp only [Entry.piece, Entry.children] at hf1 hf2 hf3
      simp only [WFc]
      refine ⟨hf2, ?_, hf3, hw.2.2.2⟩
      intro f hf
      rw [hf1]
      exact hw.2.1 f hf
    · intro f hf
      rcases List.mem_cons.mp hf with rfl | hf
      · exact ⟨Entry.mk p v cs, List.mem_cons_self _ _, hf1⟩
      · exact ⟨f, List.mem_cons_of_mem _ hf, rfl⟩
  | case4 p v cs rest ident c h1 t1 snd hs ih =>
    simp only [WFc] at hw
    obtain ⟨ihw, ihm⟩ := ih hw.2.2.2
    simp only [symtab_remove_chain, hs]
    constructor
    · simp only [WFc]
      refine ⟨hw.1, ?_, hw.2.2.1, ihw⟩
      intro f hf
      obtain ⟨e, he, hm⟩ := ihm f hf
      rw [hm]
      exact hw.2.1 e he
    · intro f hf
      rcases List.mem_cons.mp hf with rfl | hf
      · exact ⟨Entry.mk p v cs, List.mem_cons_self _ _, rfl⟩
      · obtain ⟨e, he, hm⟩ := ihm f hf
        exact ⟨e, List.mem_cons_of_mem _ he, hm⟩

/-- `remove` preserves the strong compaction invariant, and shrinks the
chain by at most one entry (exactly when the patch unlinked here). -/
theorem remove_nt2 (cs : List Entry) (k : List Char) (hn : NT2 cs) :
    NT2 (symtab_remove_chain cs k).1 ∧
    cs.length - 1 ≤ (symtab_remove_chain cs k).1.length ∧
    (symtab_remove_chain cs k).1.length ≤ cs.length ∧
    ((symtab_remove_chain cs k).2.2 = false →
      (symtab_remove_chain cs k).1.length = cs.length) := by
  induction cs, k using symtab_remove_chain.induct with
  | case1 k => simp [symtab_remove_chain, NT2]
  | case2 p v cs rest ident c sr hs hc =>
    simp only [NT2] at hn
    simp only [symtab_remove_chain, hs, if_pos hc]
    cases cs with
    | nil =>
      simp only [entryPatch]
      exact ⟨hn.2.2, by simp, by simp, by simp⟩
    | cons c0 cs2 =>
      cases cs2 with
      | nil =>
        obtain ⟨cp, cv, ccs⟩ := c0
        have hnc := hn.2.1
        simp only [NT2] at hnc
        simp only [entryPatch, entryDemote, entryMerge, Entry.piece,
          Entry.value, Entry.children]
        refine ⟨?_, by simp, by simp, by simp⟩
        simp only [NT2]
        exact ⟨hnc.1, hnc.2.1, hn.2.2⟩
      | cons c1 cs3 =>
        simp only [entryPatch, entryDemote]
        refine ⟨?_, by simp, by simp, by simp⟩
        simp only [NT2]
        exact ⟨by simp, hn.2.1, hn.2.2⟩
  | case3 p v cs rest ident c sr hs hc ih =>
    simp only [NT2] at hn
    obtain ⟨ihn, ihl1, ihl2, ihl3⟩ := ih hn.2.1
    simp only [symtab_remove_chain, hs, if_neg hc]
    have hfix : NT2 (parentFix p v (symtab_remove_chain cs sr).1
        (symtab_remove_chain cs sr).2.2 :: rest) := by
      rcases hb : (symtab_remove_chain cs sr).2.2 with _ | _
      · rw [parentFix_false]
        simp only [NT2]
        refine ⟨?_, ihn, hn.2.2⟩
        intro hv0
        rw [ihl3 hb]
        exact hn.1 hv0
      · by_cases hv : v = 0
        · subst hv
          have hlen2 := hn.1 rfl
          rcases hx : (symtab_remove_chain cs sr).1 with _ | ⟨c0, cs2⟩
          · rw [hx] at ihl1
            simp at ihl1
            omega
          · rcases cs2 with _ | ⟨c1, cs3⟩
            · rw [parentFix_merge]
              obtain ⟨cp, cv, ccs⟩ := c0
              rw [hx] at ihn
              simp only [NT2] at ihn
              simp only [entryMerge, Entry.piece, Entry.value, Entry.children,
                NT2]
              exact ⟨ihn.1, ihn.2.1, hn.2.2⟩
            · rw [parentFix_zero_big p _ (by simp)]
              rw [hx] at ihn
              simp only [NT2]
              exact ⟨fun _ => by simp [hx], ihn, hn.2.2⟩
        · rw [parentFix_nonzero _ _ _ _ hv]
          simp only [NT2]
          exact ⟨fun h0 => absurd h0 hv, ihn, hn.2.2⟩
    exact ⟨hfix, by simp, by simp, by simp⟩
  | case4 p v cs rest ident c h1 t1 snd hs ih =>
    simp only [NT2] at hn
    obtain ⟨ihn, ihl1, ihl2, ihl3⟩ := ih hn.2.2
    simp only [symtab_remove_chain, hs]
    refine ⟨?_, ?_, ?_, ?_⟩
    · simp only [NT2]
      exact ⟨hn.1, hn.2.1, ihn⟩
    · simp only [List.length_cons]
      omega
    · simp only [List.length_cons]
      omega
    · intro hb
      simp only [List.length_cons]
      rw [ihl3 hb]

/-! ### The root-shape invariant is preserved by every valid call -/

theorem rootInv_create : RootInv symtab_create :=
  ⟨42, [], rfl, by simp, by simp [WFc], by simp [NT2]⟩

theorem rootInv_put (t : List Entry) (k : List Char) (v : Int)
    (h : RootInv t) (hk : k ≠ []) (hv : v ≠ 0) :
    RootInv (symtab_put t k v).1 := by
  obtain ⟨v0, cs, rfl, hv0, hw, hn⟩ := h
  obtain ⟨k1, ks, rfl⟩ := List.exists_cons_of_ne_nil hk
  have hs : splitCommon [] (k1 :: ks) = ([], [], k1 :: ks) := by
    simp [splitCommon]
  cases cs with
  | nil =>
    simp only [symtab_put, hs]
    exact ⟨v0, _, rfl, hv0, by simp [WFc], by simp [NT2, hv]⟩
  | cons c cs2 =>
    simp only [symtab_put, hs]
    exact ⟨v0, _, rfl, hv0,
      (put_wf (c :: cs2) (k1 :: ks) v hw (by simp)).1,
      put_nt2 (c :: cs2) (k1 :: ks) v hn hv⟩

theorem rootInv_remove (t : List Entry) (k : List Char) (r : List Entry × Int)
    (h : RootInv t) (hk : k ≠ []) (hr : symtab_remove t k = some r) :
    RootInv r.1 := by
  obtain ⟨v0, cs, rfl, hv0, hw, hn⟩ := h
  rw [remove_root_some v0 cs k hk] at hr
  rw [parentFix_nonzero _ _ _ _ hv0] at hr
  have h1 : r.1 = [Entry.mk [] v0 (symtab_remove_chain cs k).1] := by
    rw [← Option.some.injEq] at hr
    simp only [Option.some.injEq] at hr
    rw [← hr]
  rw [h1]
  exact ⟨v0, _, rfl, hv0, (remove_wf cs k hw).1, (remove_nt2 cs k hn).1⟩

theorem rootInv_applyOp (t : List Entry) (op : Op)
    (h : RootInv t) (hv : ValidOp op) : RootInv (applyOp t op) := by
  cases op with
  | put k v =>
    obtain ⟨hk, hvv⟩ := hv
    exact rootInv_put t k v h hk hvv
  | remove k =>
    simp only [applyOp]
    rcases hr : symtab_remove t k with _ | r
    · exact h
    · exact rootInv_remove t k r h hv hr
  | get k => exact h
  | complete buf => exact h

theorem rootInv_runOps (t : List Entry) (ops : List Op)
    (h : RootInv t) (hall : ∀ op ∈ ops, ValidOp op) :
    RootInv (runOps t ops) := by
  induction ops generalizing t with
  | nil => exact h
  | cons op ops ih =>
    exact ih (applyOp t op)
      (rootInv_applyOp t op h (hall op (List.mem_cons_self _ _)))
      (fun o ho => hall o (List.mem_cons_of_mem _ ho))

/-! ### Transfer to the spec-level predicates -/

theorem nt2_noLone (cs : List Entry) (hn : NT2 cs) : NoLoneChild cs := by
  induction cs using NT2.induct with
  | case1 => simp [NoLoneChild]
  | case2 p v cs2 rest ih1 ih2 =>
    simp only [NT2] at hn
    simp only [NoLoneChild]
    exact ⟨fun h0 => by have := hn.1 h0; omega, ih1 hn.2.1, ih2 hn.2.2⟩

theorem wfc_sibDistinct (cs : List Entry) (hw : WFc cs) : SibDistinct cs := by
  induction cs using WFc.induct with
  | case1 => simp [SibDistinct]
  | case2 p v cs2 rest ih1 ih2 =>
    simp only [WFc] at hw
    simp only [SibDistinct]
    exact ⟨hw.2.1, ih1 hw.2.2.1, ih2 hw.2.2.2⟩

theorem rootInv_noLone (t : List Entry) (h : RootInv t) : NoLoneChild t := by
  obtain ⟨v0, cs, rfl, hv0, hw, hn⟩ := h
  simp only [NoLoneChild]
  exact ⟨fun h0 => absurd h0 hv0, nt2_noLone cs hn, by simp [NoLoneChild]⟩

theorem rootInv_sibDistinct (t : List Entry) (h : RootInv t) :
    SibDistinct t := by
  obtain ⟨v0, cs, rfl, hv0, hw, hn⟩ := h
  simp only [SibDistinct]
  exact ⟨by simp, wfc_sibDistinct cs hw, by simp [SibDistinct]⟩

/-! ### After a removal, the removed key is gone -/

theorem wfc_mem_ne_nil (cs : List Entry) (hw : WFc cs) :
    ∀ f ∈ cs, f.piece ≠ [] := by
  induction cs using WFc.induct with
  | case1 => simp
  | case2 p v cs2 rest ih1 ih2 =>
    simp only [WFc] at hw
    intro f hf
    rcases List.mem_cons.mp hf with rfl | hf
    · exact hw.1
    · exact ih2 hw.2.2.2 f hf

theorem get_empty_key (cs : List Entry) (h : ∀ f ∈ cs, f.piece ≠ []) :
    symtab_get cs [] = 0 := by
  apply get_no_head
  intro f hf
  refine ⟨h f hf, ?_⟩
  rcases hp : f.piece with _ | ⟨x, xs⟩
  · exact absurd hp (h f hf)
  · simp

theorem remove_chain_get (cs : List Entry) (k : List Char) (hw : WFc cs) :
    symtab_get (symtab_remove_chain cs k).1 k = 0 := by
  induction cs, k using symtab_remove_chain.induct with
  | case1 k => simp [symtab_remove_chain, symtab_get]
  | case2 p v cs rest ident c sr hs hc =>
    obtain ⟨hsr, hv⟩ := hc
    subst hsr
    simp only [WFc] at hw
    have hp : p = c := by
      have := (splitCommon_spec p ident).1
      rw [hs] at this
      simpa using this
    have hi : ident = c := by
      have := (splitCommon_spec p ident).2.1
      rw [hs] at this
      simpa using this
    have hpi : p = ident := hp.trans hi.symm
    have hrest : symtab_get rest ident = 0 := by
      apply get_no_head
      intro f hf
      refine ⟨wfc_mem_ne_nil rest hw.2.2.2 f hf, ?_⟩
      rw [← hpi]
      exact (hw.2.1 f hf).symm
    simp only [symtab_remove_chain, hs]
    rw [if_pos (show True ∧ v ≠ 0 from ⟨trivial, hv⟩)]
    cases cs with
    | nil =>
      simpa [entryPatch] using hrest
    | cons c0 cs2 =>
      cases cs2 with
      | nil =>
        obtain ⟨cp, cv, ccs⟩ := c0
        have hcp : cp ≠ [] := by
          have := hw.2.2.1
          simp only [WFc] at this
          exact this.1
        have hsa : splitCommon (p ++ cp) ident = (p, cp, []) := by
          rw [← hpi]
          exact splitCommon_app_self p cp
        obtain ⟨x, xs, hxc⟩ := List.exists_cons_of_ne_nil hcp
        subst hxc
        simp only [entryPatch, entryDemote, entryMerge, Entry.piece,
          Entry.value, Entry.children]
        simpa [symtab_get, hsa] using hrest
      | cons c1 cs3 =>
        simp only [entryPatch, entryDemote]
        simp only [symtab_get, hs]
        rw [if_neg (by simp)]
        exact get_empty_key _ (wfc_mem_ne_nil _ hw.2.2.1)
  | case3 p v cs rest ident c sr hs hc ih =>
    simp only [WFc] at hw
    have hig := ih hw.2.2.1
    have hp : p = c := by
      have := (splitCommon_spec p ident).1
      rw [hs] at this
      simpa using this
    have hi : ident = p ++ sr := by
      have := (splitCommon_spec p ident).2.1
      rw [hs] at this
      rw [hp]
      exact this
    have hrest : symtab_get rest ident = 0 := by
      apply get_no_head
      intro f hf
      refine ⟨wfc_mem_ne_nil rest hw.2.2.2 f hf, ?_⟩
      rw [hi, head_append_ne_nil p sr hw.1]
      exact (hw.2.1 f hf).symm
    simp only [symtab_remove_chain, hs, if_neg hc]
    rcases hb : (symtab_remove_chain cs sr).2.2 with _ | _
    · rw [parentFix_false]
      simp only [symtab_get, hs, if_neg hc]
      exact hig
    · by_cases hv : v = 0
      · subst hv
        rcases hx : (symtab_remove_chain cs sr).1 with _ | ⟨c0, cs2⟩
        · rw [parentFix_zero_big p [] (by simp)]
          simp only [symtab_get, hs, if_neg hc]
        · rcases cs2 with _ | ⟨c1, cs3⟩
          · rw [parentFix_merge]
            obtain ⟨cp, cv, ccs⟩ := c0
            rw [hx] at hig
            rcases hsp : splitCommon cp sr with ⟨c2, a2, b2⟩
            have hshift : splitCommon (p ++ cp) (p ++ sr) =
                (p ++ c2, a2, b2) := by
              rw [splitCommon_shift, hsp]
            simp only [entryMerge, Entry.piece, Entry.value, Entry.children]
            rw [hi]
            cases a2 with
            | nil =>
              simp only [symtab_get, hsp] at hig
              simp only [symtab_get, hshift]
              exact hig
            | cons a1 as =>
              simp only [symtab_get, hshift]
              rw [← hi]
              exact hrest
          · rw [parentFix_zero_big p _ (by simp)]
            simp only [symtab_get, hs, if_neg hc]
            rw [← hx]
            exact hig
      · rw [parentFix_nonzero _ _ _ _ hv]
        simp only [symtab_get, hs, if_neg hc]
        exact hig
  | case4 p v cs rest ident c h1 t1 snd hs ih =>
    simp only [WFc] at hw
    simp only [symtab_remove_chain, hs]
    simp only [symtab_get, hs]
    exact ih hw.2.2.2

/-- Top level: after a successful `remove` on a reachable handle, the
key no longer resolves. -/
theorem remove_root_get (t : List Entry) (k : List Char)
    (r : List Entry × Int) (h : RootInv t) (hk : k ≠ [])
    (hr : symtab_remove t k = some r) : symtab_get r.1 k = 0 := by
  obtain ⟨v0, cs, rfl, hv0, hw, hn⟩ := h
  rw [remove_root_some v0 cs k hk, parentFix_nonzero _ _ _ _ hv0] at hr
  have h1 : r.1 = [Entry.mk [] v0 (symtab_remove_chain cs k).1] := by
    rw [← Option.some.injEq] at hr
    simp only [Option.some.injEq] at hr
    rw [← hr]
  rw [h1]
  have hs0 : splitCommon [] k = ([], [], k) := by simp [splitCommon]
  obtain ⟨k1, ks, rfl⟩ := List.exists_cons_of_ne_nil hk
  simp only [symtab_get, hs0]
  simp only [List.cons_ne_nil, false_and, if_false]
  exact remove_chain_get cs (k1 :: ks) hw

/-! ### Frame lemmas: an absent key stays absent under `put` of a
different key and under any `remove` -/

theorem put_frame_zero (cs : List Entry) (kp : List Char) (v : Int)
    (hw : WFc cs) (hkp : kp ≠ []) :
    ∀ k, k ≠ kp → symtab_get cs k = 0 →
      symtab_get (symtab_put cs kp v).1 k = 0 := by
  induction cs, kp, v using symtab_put.induct with
  | case1 kp v =>
    intro k hne h0
    simp [symtab_put, symtab_get]
  | case2 p v0 cs rest ident value c hs =>
    intro k hne h0
    have hp : p = c := by
      have := (splitCommon_spec p ident).1
      rw [hs] at this
      simpa using this
    have hpi : p = ident := by
      have := (splitCommon_spec p ident).2.1
      rw [hs] at this
      simp at this
      rw [hp, ← this]
    rcases hgk : splitCommon p k with ⟨g, a, b⟩
    have hka : p = g ++ a := by
      have := (splitCommon_spec p k).1
      rw [hgk] at this
      exact this
    have hkb : k = g ++ b := by
      have := (splitCommon_spec p k).2.1
      rw [hgk] at this
      exact this
    simp only [symtab_put, hs]
    cases a with
    | nil =>
      cases b with
      | nil =>
        simp only [List.append_nil] at hka hkb
        exact absurd (hkb.trans (hka.symm.trans hpi)) hne
      | cons b1 bs =>
        simp only [symtab_get, hgk] at h0 ⊢
        rw [if_neg (by simp)] at h0 ⊢
        exact h0
    | cons a1 as =>
      simp only [symtab_get, hgk] at h0 ⊢
      exact h0
  | case3 p v0 rest ident value c s1 sr hs =>
    intro k hne h0
    have hp : p = c := by
      have := (splitCommon_spec p ident).1
      rw [hs] at this
      simpa using this
    have hpi : ident = p ++ (s1 :: sr) := by
      have := (splitCommon_spec p ident).2.1
      rw [hs] at this
      rw [hp]
      exact this
    rcases hgk : splitCommon p k with ⟨g, a, b⟩
    have hka : p = g ++ a := by
      have := (splitCommon_spec p k).1
      rw [hgk] at this
      exact this
    have hkb : k = g ++ b := by
      have := (splitCommon_spec p k).2.1
      rw [hgk] at this
      exact this
    simp only [symtab_put, hs]
    cases a with
    | nil =>
      simp only [List.append_nil] at hka
      have hbne : b ≠ s1 :: sr := by
        intro hb
        apply hne
        rw [hkb, hb, ← hka, hpi]
      cases b with
      | nil =>
        by_cases hv0 : v0 = 0
        · simp only [symtab_get, hgk] at h0 ⊢
          rw [if_neg (by simp [hv0])] at h0 ⊢
          simp [symtab_get, splitCommon]
        · simp only [symtab_get, hgk] at h0
          rw [if_pos ⟨trivial, hv0⟩] at h0
          exact absurd h0 hv0
      | cons b1 bs =>
        simp only [symtab_get, hgk] at h0 ⊢
        rw [if_neg (by simp)] at h0 ⊢
        have hgs := get_single_ne (b1 :: bs) (s1 :: sr) value hbne
        simp only [symtab_get] at hgs
        exact hgs
    | cons a1 as =>
      simp only [symtab_get, hgk] at h0 ⊢
      exact h0
  | case4 p v0 rest ident value c s1 sr hs c0 cs2 ih =>
    intro k hne h0
    simp only [WFc] at hw
    have ih' := ih hw.2.2.1 (by simp)
    have hp : p = c := by
      have := (splitCommon_spec p ident).1
      rw [hs] at this
      simpa using this
    have hpi : ident = p ++ (s1 :: sr) := by
      have := (splitCommon_spec p ident).2.1
      rw [hs] at this
      rw [hp]
      exact this
    rcases hgk : splitCommon p k with ⟨g, a, b⟩
    have hka : p = g ++ a := by
      have := (splitCommon_spec p k).1
      rw [hgk] at this
      exact this
    have hkb : k = g ++ b := by
      have := (splitCommon_spec p k).2.1
      rw [hgk] at this
      exact this
    simp only [symtab_put, hs]
    cases a with
    | nil =>
      simp only [List.append_nil] at hka
      have hbne : b ≠ s1 :: sr := by
        intro hb
        apply hne
        rw [hkb, hb, ← hka, hpi]
      cases b with
      | nil =>
        by_cases hv0 : v0 = 0
        · simp only [symtab_get, hgk] at h0 ⊢
          rw [if_neg (by simp [hv0])] at h0 ⊢
          exact ih' [] hbne h0
        · simp only [symtab_get, hgk] at h0
          rw [if_pos ⟨trivial, hv0⟩] at h0
          exact absurd h0 hv0
      | cons b1 bs =>
        simp only [symtab_get, hgk] at h0 ⊢
        rw [if_neg (by simp)] at h0 ⊢
        exact ih' (b1 :: bs) hbne h0
    | cons a1 as =>
      simp only [symtab_get, hgk] at h0 ⊢
      exact h0
  | case5 p v0 cs ident value h1 t1 sr hs =>
    intro k hne h0
    obtain ⟨hpe, hke, hph⟩ := splitCommon_zero_heads p ident hkp h1 t1 sr hs
    rcases hgk : splitCommon p k with ⟨g, a, b⟩
    simp only [symtab_put, hs]
    cases a with
    | nil =>
      simp only [symtab_get, hgk] at h0 ⊢
      exact h0
    | cons a1 as =>
      simp only [symtab_get, hgk] at h0 ⊢
      have hkne : k ≠ sr := by
        rw [← hke]
        exact hne
      have hgs := get_single_ne k sr value hkne
      simp only [symtab_get] at hgs
      exact hgs
  | case6 p v0 cs ident value h1 t1 sr hs r1 rest2 ih =>
    intro k hne h0
    simp only [WFc] at hw
    have ih' := ih hw.2.2.2 hkp
    rcases hgk : splitCommon p k with ⟨g, a, b⟩
    simp only [symtab_put, hs]
    cases a with
    | nil =>
      simp only [symtab_get, hgk] at h0 ⊢
      exact h0
    | cons a1 as =>
      simp only [symtab_get, hgk] at h0 ⊢
      exact ih' k hne h0
  | case7 p v0 cs rest ident value c1 cc e1 er hs =>
    intro k hne h0
    have hpe : p = (c1 :: cc) ++ (e1 :: er) := by
      have := (splitCommon_spec p ident).1
      rw [hs] at this
      exact this
    have hie : ident = c1 :: cc := by
      have := (splitCommon_spec p ident).2.1
      rw [hs] at this
      simpa using this
    rcases hgk : splitCommon (c1 :: cc) k with ⟨g2, a2, b2⟩
    have hka : (c1 :: cc : List Char) = g2 ++ a2 := by
      have := (splitCommon_spec (c1 :: cc) k).1
      rw [hgk] at this
      exact this
    have hkb : k = g2 ++ b2 := by
      have := (splitCommon_spec (c1 :: cc) k).2.1
      rw [hgk] at this
      exact this
    simp only [symtab_put, hs]
    cases a2 with
    | cons x2 xs2 =>
      have hext : splitCommon ((c1 :: cc) ++ (e1 :: er)) k =
          (g2, (x2 :: xs2) ++ (e1 :: er), b2) := by
        have := splitCommon_ext (c1 :: cc) k (e1 :: er) (by rw [hgk]; simp)
        rw [hgk] at this
        simpa using this
      rw [← hpe] at hext
      simp only [symtab_get, hext] at h0
      simp only [symtab_get, hgk]
      exact h0
    | nil =>
      simp only [List.append_nil] at hka
      cases b2 with
      | nil =>
        simp only [List.append_nil] at hkb
        exact absurd (by rw [hkb, ← hka, hie]) hne
      | cons b1 bs =>
        rcases hgE : splitCommon (e1 :: er) (b1 :: bs) with ⟨g3, a3, b3⟩
        have hshift : splitCommon p k = ((c1 :: cc) ++ g3, a3, b3) := by
          rw [hpe, hkb, ← hka, splitCommon_shift, hgE]
        simp only [symtab_get, hgk]
        rw [if_neg (by simp)]
        cases a3 with
        | nil =>
          simp only [symtab_get, hshift] at h0
          simp only [symtab_get, hgE]
          by_cases hv0 : v0 = 0
          · rw [if_neg (by simp [hv0])] at h0 ⊢
            exact h0
          · by_cases hb3 : b3 = []
            · subst hb3
              rw [if_pos ⟨rfl, hv0⟩] at h0
              exact absurd h0 hv0
            · rw [if_neg (by simp [hb3])] at h0 ⊢
              exact h0
        | cons a31 a3s =>
          simp [symtab_get, hgE]
  | case8 p v0 cs rest ident value c1 cc e1 er s1 sr hs =>
    intro k hne h0
    have hpe : p = (c1 :: cc) ++ (e1 :: er) := by
      have := (splitCommon_spec p ident).1
      rw [hs] at this
      exact this
    have hie : ident = (c1 :: cc) ++ (s1 :: sr) := by
      have := (splitCommon_spec p ident).2.1
      rw [hs] at this
      exact this
    rcases hgk : splitCommon (c1 :: cc) k with ⟨g2, a2, b2⟩
    have hka : (c1 :: cc : List Char) = g2 ++ a2 := by
      have := (splitCommon_spec (c1 :: cc) k).1
      rw [hgk] at this
      exact this
    have hkb : k = g2 ++ b2 := by
      have := (splitCommon_spec (c1 :: cc) k).2.1
      rw [hgk] at this
      exact this
    simp only [symtab_put, hs]
    cases a2 with
    | cons x2 xs2 =>
      have hext : splitCommon ((c1 :: cc) ++ (e1 :: er)) k =
          (g2, (x2 :: xs2) ++ (e1 :: er), b2) := by
        have := splitCommon_ext (c1 :: cc) k (e1 :: er) (by rw [hgk]; simp)
        rw [hgk] at this
        simpa using this
      rw [← hpe] at hext
      simp only [symtab_get, hext] at h0
      simp only [symtab_get, hgk]
      exact h0
    | nil =>
      simp only [List.append_nil] at hka
      cases b2 with
      | nil =>
        simp only [List.append_nil] at hkb
        have hkc : k = c1 :: cc := hkb.trans hka.symm
        have hself : splitCommon ((c1 :: cc) ++ (e1 :: er)) (c1 :: cc) =
            (c1 :: cc, e1 :: er, []) := splitCommon_app_self _ _
        simp only [symtab_get, hgk]
        rw [if_neg (by simp)]
        have hE0 : splitCommon (e1 :: er) ([] : List Char) =
            ([], e1 :: er, []) := by simp [splitCommon]
        have hS0 : splitCommon (s1 :: sr) ([] : List Char) =
            ([], s1 :: sr, []) := by simp [splitCommon]
        simp [symtab_get, hE0, hS0]
      | cons b1 bs =>
        rcases hgE : splitCommon (e1 :: er) (b1 :: bs) with ⟨g3, a3, b3⟩
        have hshift : splitCommon p k = ((c1 :: cc) ++ g3, a3, b3) := by
          rw [hpe, hkb, ← hka, splitCommon_shift, hgE]
        simp only [symtab_get, hgk]
        rw [if_neg (by simp)]
        cases a3 with
        | nil =>
          simp only [symtab_get, hshift] at h0
          simp only [symtab_get, hgE]
          by_cases hv0 : v0 = 0
          · rw [if_neg (by simp [hv0])] at h0 ⊢
            exact h0
          · by_cases hb3 : b3 = []
            · subst hb3
              rw [if_pos ⟨rfl, hv0⟩] at h0
              exact absurd h0 hv0
            · rw [if_neg (by simp [hb3])] at h0 ⊢
              exact h0
        | cons a31 a3s =>
          have hbne : (b1 :: bs : List Char) ≠ s1 :: sr := by
            intro hb
            apply hne
            rw [hkb, hb, ← hka, hie]
          simp only [symtab_get, hgE]
          have hgs := get_single_ne (b1 :: bs) (s1 :: sr) value hbne
          simp only [symtab_get] at hgs
          exact hgs

theorem parentFix_shape (p : List Char) (v : Int) (x : List Entry) (b : Bool) :
    parentFix p v x b = Entry.mk p v x ∨
    (v = 0 ∧ ∃ c, x = [c] ∧ parentFix p v x b = entryMerge p c) := by
  cases b with
  | false => exact Or.inl (parentFix_false p v x)
  | true =>
    by_cases hv : v = 0
    · subst hv
      rcases x with _ | ⟨c0, cs2⟩
      · exact Or.inl (parentFix_zero_big p [] (by simp))
      · rcases cs2 with _ | ⟨c1, cs3⟩
        · exact Or.inr ⟨rfl, c0, rfl, parentFix_merge p c0⟩
        · exact Or.inl (parentFix_zero_big p _ (by simp))
    · exact Or.inl (parentFix_nonzero p v x true hv)

theorem remove_frame_zero (cs : List Entry) (kr : List Char) (hw : WFc cs) :
    ∀ k, symtab_get cs k = 0 →
      symtab_get (symtab_remove_chain cs kr).1 k = 0 := by
  induction cs, kr using symtab_remove_chain.induct with
  | case1 kr =>
    intro k h0
    simp [symtab_remove_chain, symtab_get]
  | case2 p v cs rest ident c sr hs hc =>
    obtain ⟨hsr, hv⟩ := hc
    subst hsr
    simp only [WFc] at hw
    intro k h0
    rcases hgk : splitCommon p k with ⟨g, a, b⟩
    have hka : p = g ++ a := by
      have := (splitCommon_spec p k).1
      rw [hgk] at this
      exact this
    have hkb : k = g ++ b := by
      have := (splitCommon_spec p k).2.1
      rw [hgk] at this
      exact this
    have hrest0 : a = [] → symtab_get rest k = 0 := by
      intro ha
      subst ha
      simp only [List.append_nil] at hka
      apply get_no_head
      intro f hf
      refine ⟨wfc_mem_ne_nil rest hw.2.2.2 f hf, ?_⟩
      rw [hkb, ← hka, head_append_ne_nil p b hw.1]
      exact (hw.2.1 f hf).symm
    simp only [symtab_remove_chain, hs]
    rw [if_pos (show True ∧ v ≠ 0 from ⟨trivial, hv⟩)]
    cases a with
    | nil =>
      cases b with
      | nil =>
        simp only [symtab_get, hgk] at h0
        rw [if_pos ⟨trivial, hv⟩] at h0
        exact absurd h0 hv
      | cons b1 bs =>
        simp only [symtab_get, hgk] at h0
        rw [if_neg (by simp)] at h0
        cases cs with
        | nil =>
          simpa [entryPatch] using hrest0 rfl
        | cons c0 cs2 =>
          cases cs2 with
          | nil =>
            obtain ⟨cp, cv, ccs⟩ := c0
            simp only [List.append_nil] at hka
            rcases hgE : splitCommon cp (b1 :: bs) with ⟨g3, a3, b3⟩
            simp only [symtab_get, hgE] at h0
            have hshift : splitCommon (p ++ cp) k = (p ++ g3, a3, b3) := by
              rw [hkb, ← hka, splitCommon_shift, hgE]
            simp only [entryPatch, entryDemote, entryMerge, Entry.piece,
              Entry.value, Entry.children]
            cases a3 with
            | nil =>
              simp only [symtab_get, hshift]
              exact h0
            | cons a31 a3s =>
              simp only [symtab_get, hshift]
              exact hrest0 rfl
          | cons c1 cs3 =>
            simp only [entryPatch, entryDemote]
            simp only [symtab_get, hgk]
            rw [if_neg (by simp)]
            exact h0
    | cons a1 as =>
      simp only [symtab_get, hgk] at h0
      cases cs with
      | nil =>
        simpa [entryPatch] using h0
      | cons c0 cs2 =>
        cases cs2 with
        | nil =>
          obtain ⟨cp, cv, ccs⟩ := c0
          have hext : splitCommon (p ++ cp) k = (g, (a1 :: as) ++ cp, b) := by
            have := splitCommon_ext p k cp (by rw [hgk]; simp)
            rw [hgk] at this
            simpa using this
          simp only [entryPatch, entryDemote, entryMerge, Entry.piece,
            Entry.value, Entry.children]
          simp only [symtab_get, hext]
          exact h0
        | cons c1 cs3 =>
          simp only [entryPatch, entryDemote]
          simp only [symtab_get, hgk]
          exact h0
  | case3 p v cs rest ident c sr hs hc ih =>
    simp only [WFc] at hw
    have ih' := ih hw.2.2.1
    intro k h0
    rcases hgk : splitCommon p k with ⟨g, a, b⟩
    have hka : p = g ++ a := by
      have := (splitCommon_spec p k).1
      rw [hgk] at this
      exact this
    have hkb : k = g ++ b := by
      have := (splitCommon_spec p k).2.1
      rw [hgk] at this
      exact this
    have hrest0 : a = [] → symtab_get rest k = 0 := by
      intro ha
      subst ha
      simp only [List.append_nil] at hka
      apply get_no_head
      intro f hf
      refine ⟨wfc_mem_ne_nil rest hw.2.2.2 f hf, ?_⟩
      rw [hkb, ← hka, head_append_ne_nil p b hw.1]
      exact (hw.2.1 f hf).symm
    simp only [symtab_remove_chain, hs, if_neg hc]
    rcases parentFix_shape p v (symtab_remove_chain cs sr).1
        (symtab_remove_chain cs sr).2.2 with hpf | ⟨hv0, c0, hx1, hpf⟩
    · rw [hpf]
      cases a with
      | nil =>
        cases b with
        | nil =>
          by_cases hv : v = 0
          · simp only [symtab_get, hgk] at h0 ⊢
            rw [if_neg (by simp [hv])] at h0 ⊢
            exact ih' [] h0
          · simp only [symtab_get, hgk] at h0
            rw [if_pos ⟨trivial, hv⟩] at h0
            exact absurd h0 hv
        | cons b1 bs =>
          simp only [symtab_get, hgk] at h0 ⊢
          rw [if_neg (by simp)] at h0 ⊢
          exact ih' (b1 :: bs) h0
      | cons a1 as =>
        simp only [symtab_get, hgk] at h0 ⊢
        exact h0
    · subst hv0
      obtain ⟨cp, cv, ccs⟩ := c0
      rw [hpf]
      have hwr := (remove_wf cs sr hw.2.2.1).1
      rw [hx1] at hwr
      have hcp : cp ≠ [] := by
        simp only [WFc] at hwr
        exact hwr.1
      simp only [entryMerge, Entry.piece, Entry.value, Entry.children]
      cases a with
      | nil =>
        cases b with
        | nil =>
          simp only [List.append_nil] at hka hkb
          obtain ⟨x, xs, hxc⟩ := List.exists_cons_of_ne_nil hcp
          subst hxc
          have hsa : splitCommon (p ++ x :: xs) k = (p, x :: xs, []) := by
            rw [hkb, ← hka]
            exact splitCommon_app_self p (x :: xs)
          simp only [symtab_get, hsa]
          exact hrest0 rfl
        | cons b1 bs =>
          simp only [List.append_nil] at hka
          simp only [symtab_get, hgk] at h0
          rw [if_neg (by simp)] at h0
          have ihb := ih' (b1 :: bs) h0
          rw [hx1] at ihb
          rcases hgE : splitCommon cp (b1 :: bs) with ⟨g3, a3, b3⟩
          simp only [symtab_get, hgE] at ihb
          have hshift : splitCommon (p ++ cp) k = (p ++ g3, a3, b3) := by
            rw [hkb, ← hka, splitCommon_shift, hgE]
          cases a3 with
          | nil =>
            simp only [symtab_get, hshift]
            exact ihb
          | cons a31 a3s =>
            simp only [symtab_get, hshift]
            exact hrest0 rfl
      | cons a1 as =>
        have hext : splitCommon (p ++ cp) k = (g, (a1 :: as) ++ cp, b) := by
          have := splitCommon_ext p k cp (by rw [hgk]; simp)
          rw [hgk] at this
          simpa using this
        simp only [symtab_get, hext]
        simp only [symtab_get, hgk] at h0
        exact h0
  | case4 p v cs rest ident c h1 t1 snd hs ih =>
    simp only [WFc] at hw
    have ih' := ih hw.2.2.2
    intro k h0
    rcases hgk : splitCommon p k with ⟨g, a, b⟩
    simp only [symtab_remove_chain, hs]
    cases a with
    | nil =>
      simp only [symtab_get, hgk] at h0 ⊢
      exact h0
    | cons a1 as =>
      simp only [symtab_get, hgk] at h0 ⊢
      exact ih' k h0

/-! ### Handle-level packaging -/

theorem get_root_ne (v0 : Int) (cs : List Entry) (k : List Char)
    (hk : k ≠ []) : symtab_get [Entry.mk [] v0 cs] k = symtab_get cs k := by
  have hs : splitCommon [] k = ([], [], k) := by simp [splitCommon]
  obtain ⟨k1, ks, rfl⟩ := List.exists_cons_of_ne_nil hk
  simp only [symtab_get, hs]
  rw [if_neg (by simp)]

theorem get_root_empty (v0 : Int) (cs : List Entry) (hv0 : v0 ≠ 0) :
    symtab_get [Entry.mk [] v0 cs] [] = v0 := by
  have hs : splitCommon [] ([] : List Char) = ([], [], []) := by
    simp [splitCommon]
  simp only [symtab_get, hs]
  rw [if_pos ⟨trivial, hv0⟩]

theorem get_create (k : List Char) (hk : k ≠ []) :
    symtab_get symtab_create k = 0 := by
  rw [symtab_create, get_root_ne _ _ _ hk]
  simp [symtab_get]

theorem put_root_frame (t : List Entry) (kp k : List Char) (v : Int)
    (h : RootInv t) (hkp : kp ≠ []) (hne : k ≠ kp)
    (h0 : symtab_get t k = 0) : symtab_get (symtab_put t kp v).1 k = 0 := by
  obtain ⟨v0, cs, rfl, hv0, hw, hn⟩ := h
  have hk : k ≠ [] := by
    intro hk0
    subst hk0
    rw [get_root_empty v0 cs hv0] at h0
    exact hv0 h0
  obtain ⟨p1, ps, rfl⟩ := List.exists_cons_of_ne_nil hkp
  have hs : splitCommon [] (p1 :: ps) = ([], [], p1 :: ps) := by
    simp [splitCommon]
  rw [get_root_ne v0 cs k hk] at h0
  cases cs with
  | nil =>
    simp only [symtab_put, hs]
    rw [get_root_ne v0 _ k hk]
    exact get_single_ne k (p1 :: ps) v hne
  | cons c0 cs2 =>
    simp only [symtab_put, hs]
    rw [get_root_ne v0 _ k hk]
    exact put_frame_zero (c0 :: cs2) (p1 :: ps) v hw (by simp) k hne h0

theorem remove_root_frame (t : List Entry) (kr k : List Char)
    (r : List Entry × Int) (h : RootInv t) (hkr : kr ≠ [])
    (hr : symtab_remove t kr = some r) (h0 : symtab_get t k = 0) :
    symtab_get r.1 k = 0 := by
  obtain ⟨v0, cs, rfl, hv0, hw, hn⟩ := h
  have hk : k ≠ [] := by
    intro hk0
    subst hk0
    rw [get_root_empty v0 cs hv0] at h0
    exact hv0 h0
  rw [remove_root_some v0 cs kr hkr, parentFix_nonzero _ _ _ _ hv0] at hr
  have h1 : r.1 = [Entry.mk [] v0 (symtab_remove_chain cs kr).1] := by
    rw [← Option.some.injEq] at hr
    simp only [Option.some.injEq] at hr
    rw [← hr]
  rw [h1, get_root_ne v0 _ k hk]
  rw [get_root_ne v0 cs k hk] at h0
  exact remove_frame_zero cs kr hw k h0

theorem get_zero_applyOp (t : List Entry) (op : Op) (k : List Char)
    (h : RootInv t) (hval : ValidOp op)
    (hne : ∀ v, op ≠ Op.put k v) (h0 : symtab_get t k = 0) :
    symtab_get (applyOp t op) k = 0 := by
  cases op with
  | put kp v =>
    obtain ⟨hkp, hvv⟩ := hval
    have hnk : k ≠ kp := by
      intro hk
      subst hk
      exact hne v rfl
    exact put_root_frame t kp k v h hkp hnk h0
  | remove kr =>
    simp only [applyOp]
    rcases hr : symtab_remove t kr with _ | r
    · exact h0
    · exact remove_root_frame t kr k r h hval hr h0
  | get k2 => exact h0
  | complete buf => exact h0

theorem get_zero_runOps (t : List Entry) (ops : List Op) (k : List Char)
    (h : RootInv t) (hall : ∀ op ∈ ops, ValidOp op)
    (hnp : ∀ v, Op.put k v ∉ ops) (h0 : symtab_get t k = 0) :
    symtab_get (runOps t ops) k = 0 := by
  induction ops generalizing t with
  | nil => exact h0
  | cons op ops ih =>
    have hv := hall op (List.mem_cons_self _ _)
    refine ih (applyOp t op) (rootInv_applyOp t op h hv)
      (fun o ho => hall o (List.mem_cons_of_mem _ ho))
      (fun v hvin => hnp v (List.mem_cons_of_mem _ hvin)) ?_
    refine get_zero_applyOp t op k h hv ?_ h0
    intro v hop
    exact hnp v (hop ▸ List.mem_cons_self _ _)

/-! ### Claim theorems -/

/-- C1 counterexample: the claim says `get` of a never-inserted key
returns 0, including the empty string on a fresh trie, and that `create`
yields a root with no stored value. In fact `symtab_create` stores 42 in
the root, and `get("")` on the fresh trie returns that 42. -/
theorem c1_counterexample :
    symtab_get symtab_create [] = 42 ∧ symtab_get symtab_create [] ≠ 0 := by
  constructor <;> simp [symtab_get, symtab_create, splitCommon]

/-- C1 (amended): for every non-empty key `k` that was never passed to
`put` during a valid operation sequence started from `create`, `get k`
returns 0. (The fresh root carries the internal non-zero marker 42,
which `get` reports for the empty key, so the empty string is
excluded.) -/
theorem c1_never_put_get_zero (ops : List Op) (k : List Char)
    (hall : ∀ op ∈ ops, ValidOp op) (hk : k ≠ [])
    (hnp : ∀ v, Op.put k v ∉ ops) :
    symtab_get (runOps symtab_create ops) k = 0 :=
  get_zero_runOps symtab_create ops k rootInv_create hall hnp (get_create k hk)

/-- C1 witness. -/
theorem c1_witness : symtab_get (runOps symtab_create []) ['a'] = 0 :=
  c1_never_put_get_zero [] ['a'] (by simp) (by simp) (by simp)

/-- C2: on every trie reachable from `create` by valid operations,
`put k v` followed by `get k` returns `v`, for non-empty `k` and
non-zero `v`. -/
theorem c2_put_get_roundtrip (ops : List Op) (k : List Char) (v : Int)
    (hall : ∀ op ∈ ops, ValidOp op) (_hk : k ≠ []) (hv : v ≠ 0) :
    symtab_get (symtab_put (runOps symtab_create ops) k v).1 k = v := by
  obtain ⟨v0, cs, heq, -, -, -⟩ :=
    rootInv_runOps symtab_create ops rootInv_create hall
  rw [heq]
  exact get_put _ k v (by simp) hv

/-- C2 witness. -/
theorem c2_witness :
    symtab_get (symtab_put (runOps symtab_create []) ['a'] 3).1 ['a'] = 3 :=
  c2_put_get_roundtrip [] ['a'] 3 (by simp) (by simp) (by decide)

/-- C3 counterexample: with only "ab" stored, `complete` on the buffer
"ax" hits a mismatch strictly inside the label "ab" (after matching
'a'), yet the code overwrites the buffer's divergent tail with the
label's tail, leaving "ab" and returning modified — the claim says a
mid-label mismatch changes nothing and returns not-modified. -/
theorem c3_counterexample :
    symtab_complete_buf (symtab_put symtab_create ['a','b'] 1).1 ['a','x'] =
      (['a','b'], true) := by
  have h0 : splitCommon [] ['a','b'] = ([], [], ['a','b']) := rfl
  have hT : (symtab_put symtab_create ['a','b'] 1).1 =
      [Entry.mk [] 42 [Entry.mk ['a','b'] 1 []]] := by
    simp [symtab_put, symtab_create, h0]
  have h1 : splitCommon [] ['a','x'] = ([], [], ['a','x']) := rfl
  have h2 : splitCommon ['a','b'] ['a','x'] = (['a'], ['b'], ['x']) := rfl
  rw [hT]
  simp [symtab_complete_buf, symtab_complete, h1, h2]

/-- C3 (amended): `complete` modifies the buffer exactly when it
returns modified, which happens whenever traversal stops strictly
inside a label — when the buffer is exhausted mid-label the label's
unmatched tail is appended, and on a mid-label mismatch the buffer's
divergent tail is overwritten by the label's tail. When it returns
not-modified (exact boundary match, or divergence at the start of every
remaining sibling label) the buffer is unchanged. -/
theorem c3_modified_iff_changed (t : List Entry) (buf : List Char) :
    (symtab_complete_buf t buf).2 = true ↔
      (symtab_complete_buf t buf).1 ≠ buf := by
  constructor
  · intro h
    have hne := complete_true_ne t [] buf (by simpa [symtab_complete_buf] using h)
    simpa [symtab_complete_buf] using hne
  · intro h
    rcases hb : (symtab_complete_buf t buf).2 with _ | _
    · exfalso
      apply h
      have heq := complete_false_eq t [] buf
        (by simpa [symtab_complete_buf] using hb)
      simpa [symtab_complete_buf] using heq
    · rfl

/-- C4: after any valid operation sequence from `create`, no
non-terminal node has exactly one child. -/
theorem c4_no_lone_child (ops : List Op) (hall : ∀ op ∈ ops, ValidOp op) :
    NoLoneChild (runOps symtab_create ops) :=
  rootInv_noLone _ (rootInv_runOps symtab_create ops rootInv_create hall)

/-- C4 witness. -/
theorem c4_witness : NoLoneChild (runOps symtab_create []) :=
  c4_no_lone_child [] (by simp)

/-- C5 counterexample: the claim quantifies over all keys; with the
empty key, `put("", 5)` stores 5 at the root and the following
`remove("")` finds the terminal at the root while the tracked parent is
still NULL, so `_entry_remove` dereferences NULL (modelled `none`) —
the call does not return 5. -/
theorem c5_counterexample :
    symtab_remove (symtab_put symtab_create [] 5).1 [] = none := by
  have h0 : splitCommon [] ([] : List Char) = ([], [], []) := rfl
  simp [symtab_put, symtab_create, symtab_remove, h0]

/-- C5 (amended): for every non-empty key `k` and non-zero value `v`,
on every trie reachable from `create` by valid operations, `put k v`
followed by `remove k` succeeds, returns `v`, and afterwards `get k`
returns 0. -/
theorem c5_put_remove_roundtrip (ops : List Op) (k : List Char) (v : Int)
    (hall : ∀ op ∈ ops, ValidOp op) (hk : k ≠ []) (hv : v ≠ 0) :
    ∃ t2, symtab_remove (symtab_put (runOps symtab_create ops) k v).1 k =
        some (t2, v) ∧ symtab_get t2 k = 0 := by
  have h := rootInv_runOps symtab_create ops rootInv_create hall
  have h1 := rootInv_put (runOps symtab_create ops) k v h hk hv
  obtain ⟨v0, cs0, heq0, -, -, -⟩ := h
  have hget : symtab_get (symtab_put (runOps symtab_create ops) k v).1 k = v := by
    rw [heq0]
    exact get_put _ k v (by simp) hv
  obtain ⟨v1, cs1, heq1, hv1, hw1, hn1⟩ := h1
  rw [heq1]
  rw [remove_root_some v1 cs1 k hk, parentFix_nonzero _ _ _ _ hv1]
  refine ⟨[Entry.mk [] v1 (symtab_remove_chain cs1 k).1], ?_, ?_⟩
  · have hval : (symtab_remove_chain cs1 k).2.1 = v := by
      rw [remove_chain_val]
      rw [heq1, get_root_ne v1 cs1 k hk] at hget
      exact hget
    rw [hval]
  · rw [get_root_ne v1 _ k hk]
    exact remove_chain_get cs1 k hw1

/-- C5 witness. -/
theorem c5_witness :
    ∃ t2, symtab_remove (symtab_put (runOps symtab_create []) ['a'] 7).1
        ['a'] = some (t2, 7) ∧ symtab_get t2 ['a'] = 0 :=
  c5_put_remove_roundtrip [] ['a'] 7 (by simp) (by simp) (by decide)

/-- C6: after any valid operation sequence from `create`, sibling
labels at every branching point have pairwise distinct first
characters. -/
theorem c6_sibling_distinct (ops : List Op) (hall : ∀ op ∈ ops, ValidOp op) :
    SibDistinct (runOps symtab_create ops) :=
  rootInv_sibDistinct _ (rootInv_runOps symtab_create ops rootInv_create hall)

/-- C6 witness. -/
theorem c6_witness : SibDistinct (runOps symtab_create []) :=
  c6_sibling_distinct [] (by simp)

/-- C7: on every reachable trie, `put k v1` then `put k v2` returns
`v1` from the second call and leaves `get k = v2`; the second `put`
only overwrites the node's value — the resulting trie is exactly the
trie obtained by a single `put k v2`, so the node's children are
untouched. -/
theorem c7_overwrite (ops : List Op) (k : List Char) (v1 v2 : Int)
    (hall : ∀ op ∈ ops, ValidOp op) (_hk : k ≠ [])
    (_hv1 : v1 ≠ 0) (hv2 : v2 ≠ 0) :
    (symtab_put (symtab_put (runOps symtab_create ops) k v1).1 k v2).2 = v1 ∧
    symtab_get
      (symtab_put (symtab_put (runOps symtab_create ops) k v1).1 k v2).1 k =
      v2 ∧
    (symtab_put (symtab_put (runOps symtab_create ops) k v1).1 k v2).1 =
      (symtab_put (runOps symtab_create ops) k v2).1 := by
  obtain ⟨v0, cs, heq, -, -, -⟩ :=
    rootInv_runOps symtab_create ops rootInv_create hall
  rw [heq]
  have hpp := put_put [Entry.mk [] v0 cs] k v1 v2 (by simp)
  refine ⟨by rw [hpp], ?_, by rw [hpp]⟩
  rw [hpp]
  exact get_put _ k v2 (by simp) hv2

/-- C7 witness. -/
theorem c7_witness :
    (symtab_put (symtab_put (runOps symtab_create []) ['a'] 1).1 ['a'] 2).2
        = 1 ∧
    symtab_get
      (symtab_put (symtab_put (runOps symtab_create []) ['a'] 1).1 ['a'] 2).1
        ['a'] = 2 ∧
    (symtab_put (symtab_put (runOps symtab_create []) ['a'] 1).1 ['a'] 2).1 =
      (symtab_put (runOps symtab_create []) ['a'] 2).1 :=
  c7_overwrite [] ['a'] 1 2 (by simp) (by simp) (by decide) (by decide)

/-- C8: on every reachable trie, removing a non-empty key that is not
stored as a terminal (its lookup yields 0) returns 0 and leaves the
trie structurally identical. -/
theorem c8_remove_missing_noop (ops : List Op) (k : List Char)
    (_hall : ∀ op ∈ ops, ValidOp op) (_hk : k ≠ [])
    (h0 : symtab_get (runOps symtab_create ops) k = 0) :
    symtab_remove (runOps symtab_create ops) k =
      some (runOps symtab_create ops, 0) :=
  remove_notfound _ k h0

/-- C8 witness. -/
theorem c8_witness :
    symtab_remove (runOps symtab_create []) ['a'] =
      some (runOps symtab_create [], 0) :=
  c8_remove_missing_noop [] ['a'] (by simp) (by simp)
    (by simp [runOps, symtab_get, symtab_create, splitCommon])

/-- C9: calling `put` with value 0 fails the assertion before any
mutation (`none`); with any non-zero value the assertion passes and the
operation proceeds as the unchecked `put`. -/
theorem c9_put_zero_assert (t : List Entry) (k : List Char) (v : Int) :
    (symtab_put_checked t k v = none ↔ v = 0) ∧
    (v ≠ 0 → symtab_put_checked t k v = some (symtab_put t k v)) := by
  refine ⟨⟨?_, ?_⟩, ?_⟩
  · intro h
    by_contra hv
    simp [symtab_put_checked, hv] at h
  · intro h
    simp [symtab_put_checked, h]
  · intro hv
    simp [symtab_put_checked, hv]

/-- C9 witness. -/
theorem c9_witness :
    symtab_put_checked symtab_create ['a'] 0 = none ∧
    symtab_put_checked symtab_create ['a'] 3 =
      some (symtab_put symtab_create ['a'] 3) :=
  ⟨(c9_put_zero_assert symtab_create ['a'] 0).1.mpr rfl,
    (c9_put_zero_assert symtab_create ['a'] 3).2 (by decide)⟩

/-- C10: on every reachable trie, removal with a non-empty key never
finds the terminal at the handle's own chain, so the tracked parent is
non-null whenever the structural patch runs and the embedded remove is
total (never the NULL-parent `none`). -/
theorem c10_remove_total (ops : List Op) (k : List Char)
    (hall : ∀ op ∈ ops, ValidOp op) (hk : k ≠ []) :
    ∃ r, symtab_remove (runOps symtab_create ops) k = some r := by
  obtain ⟨v0, cs, heq, -, -, -⟩ :=
    rootInv_runOps symtab_create ops rootInv_create hall
  rw [heq]
  exact ⟨_, remove_root_some v0 cs k hk⟩

/-- C10 witness. -/
theorem c10_witness :
    ∃ r, symtab_remove (runOps symtab_create []) ['a'] = some r :=
  c10_remove_total [] ['a'] (by simp) (by simp)

end Symtab
